import Mathlib

/-!
Shallow embedding of the graph algorithm engine (`Graph.h`): the hand-written
binary min-heap (`Heap`), adjacency lists (`AdjList`), the `Graph` class with
`addEdge`, and the four algorithms `BFS`, `DFS`, `PrimsAlgorithm`,
`DijkstraAlgorithm`.  C++ `int` is modelled as `Int` (no arithmetic in the
engine approaches 32-bit overflow on the inputs considered); `INT_MAX` is the
literal 32-bit maximum used as the "infinity" sentinel.  Vertex indices stored
inside the structures are `Nat` (the C++ code only ever stores indices it has
validated to lie in `[0, vertices)`); the public `addEdge` entry point keeps
`Int` parameters so that negative indices are representable, exactly as in the
source.  Loops are modelled by structural recursion on a fuel parameter that
dominates the iteration count of the corresponding C++ loop; safety theorems
hold for every fuel, and the BFS fuel is proved sufficient below.
-/

def INT_MAX : Int := 2147483647

/-- Heap entry `(vertex, key)`; the C++ default constructor zeroes both. -/
structure HNode where
  vertex : Nat
  key : Int
  deriving DecidableEq, Repr

instance : Inhabited HNode := ⟨⟨0, 0⟩⟩

/-- One-based read of the heap array (`arr[i]` in the C++ code). -/
def hget (a : List HNode) (i : Nat) : HNode := a.getD (i - 1) ⟨0, 0⟩

/-- One-based write of the heap array (`arr[i] = x` in the C++ code). -/
def hset (a : List HNode) (i : Nat) (x : HNode) : List HNode := a.set (i - 1) x

/-- Embeds `Heap::percolateDown`: sink the element at position `i` (1-based) by
repeatedly swapping with the smaller child while a child is strictly smaller.
The live array is exactly the list (`size = a.length`); `fuel` dominates the
recursion depth (each step at least doubles `i`). -/
def percolateDown (fuel : Nat) (a : List HNode) (i : Nat) : List HNode :=
  match fuel with
  | 0 => a
  | fuel + 1 =>
    let size := a.length
    let left := 2 * i
    let right := 2 * i + 1
    let s1 := if left ≤ size ∧ (hget a left).key < (hget a i).key then left else i
    let s2 := if right ≤ size ∧ (hget a right).key < (hget a s1).key then right else s1
    if s2 ≠ i then
      percolateDown fuel (hset (hset a i (hget a s2)) s2 (hget a i)) s2
    else a

/-- Embeds `Heap::percolateUp`: bubble the element at position `i` (1-based) up while
it is strictly smaller than its parent.  `fuel` dominates the recursion depth
(`i` at least halves each step). -/
def percolateUp (fuel : Nat) (a : List HNode) (i : Nat) : List HNode :=
  match fuel with
  | 0 => a
  | fuel + 1 =>
    if 1 < i ∧ (hget a i).key < (hget a (i / 2)).key then
      percolateUp fuel (hset (hset a i (hget a (i / 2))) (i / 2) (hget a i)) (i / 2)
    else a

/-- The array-backed min-heap.  `arr` holds exactly the `size` live entries at
1-based positions `1 .. size` (the C++ array slots beyond `size` are never
read); `capacity` is the fixed allocation bound from the constructor. -/
structure Heap where
  arr : List HNode
  capacity : Nat
  deriving DecidableEq, Repr

/-- Embeds `Heap::Heap(cap)`: empty heap with fixed capacity. -/
def Heap.init (cap : Nat) : Heap := ⟨[], cap⟩

/-- Embeds `Heap::isEmpty`. -/
def Heap.isEmpty (h : Heap) : Bool := h.arr.length = 0

/-- Embeds `Heap::InsertKey(v, k)`: silently dropped when full; otherwise append at
position `size+1` and percolate up. -/
def Heap.InsertKey (h : Heap) (v : Nat) (k : Int) : Heap :=
  if h.arr.length ≥ h.capacity then h
  else { h with arr := percolateUp (h.arr.length + 1) (h.arr ++ [⟨v, k⟩]) (h.arr.length + 1) }

/-- Embeds `Heap::ExtractMin`: on an empty heap return the zero sentinel; otherwise
return the root, move the last element to the root, shrink, percolate down. -/
def Heap.ExtractMin (h : Heap) : HNode × Heap :=
  match h.arr with
  | [] => (⟨0, 0⟩, h)
  | _ :: _ =>
    let minNode := hget h.arr 1
    let a2 := (hset h.arr 1 (hget h.arr h.arr.length)).take (h.arr.length - 1)
    (minNode, { h with arr := percolateDown a2.length a2 1 })

/-- An operation on the heap, for reasoning about reachable heap states. -/
inductive HeapOp where
  | insert (v : Nat) (k : Int)
  | extract
  deriving DecidableEq, Repr

/-- Run a sequence of heap operations left to right. -/
def runOps (h : Heap) : List HeapOp → Heap
  | [] => h
  | HeapOp.insert v k :: rest => runOps (h.InsertKey v k) rest
  | HeapOp.extract :: rest => runOps (h.ExtractMin).2 rest

/-- The 1-based min-heap ordering invariant: every non-root live position is
at least its parent. -/
def heapOrdered (a : List HNode) : Prop :=
  ∀ j, j ≤ a.length → 2 ≤ j → (hget a (j / 2)).key ≤ (hget a j).key

instance (a : List HNode) : Decidable (heapOrdered a) := by
  unfold heapOrdered; infer_instance

/-- Intermediate invariant of `percolateUp` with the bubbling element at
position `i`: heap order holds at every non-root live position other than
`i`, and the children of `i` are dominated by `i`'s parent when `i` has
one. -/
def PUInv (a : List HNode) (i : Nat) : Prop :=
  (∀ j, 2 ≤ j → j ≤ a.length → j ≠ i → (hget a (j / 2)).key ≤ (hget a j).key) ∧
  (∀ j, 2 ≤ j → j ≤ a.length → j / 2 = i → 2 ≤ i →
    (hget a (i / 2)).key ≤ (hget a j).key)

/-- Intermediate invariant of `percolateDown` with the sinking hole at
position `i`: heap order holds at every live position whose parent is not
`i`, and the children of `i` are dominated by `i`'s parent when `i` has
one. -/
def PDInv (a : List HNode) (i : Nat) : Prop :=
  (∀ j, 2 ≤ j → j ≤ a.length → j / 2 ≠ i → (hget a (j / 2)).key ≤ (hget a j).key) ∧
  (∀ j, 2 ≤ j → j ≤ a.length → j / 2 = i → 2 ≤ i →
    (hget a (i / 2)).key ≤ (hget a j).key)

/-- Embeds `AdjList::AddEdge`: O(1) prepend, so the head is the most recently
inserted edge record. -/
def AdjList.AddEdge (l : List (Nat × Int)) (dest : Nat) (w : Int) : List (Nat × Int) :=
  (dest, w) :: l

/-- The `Graph` class: vertex count, one adjacency list per vertex
(`array[i]`, newest record first) and the adjacency-matrix mirror
(`AdjMat`, zero-initialised by the constructor). -/
structure Graph where
  vertices : Nat
  array : Nat → List (Nat × Int)
  AdjMat : Nat → Nat → Int

/-- Embeds `Graph::Graph(v)`: empty adjacency lists, zero matrix. -/
def Graph.init (v : Nat) : Graph := ⟨v, fun _ => [], fun _ _ => 0⟩

/-- Embeds `Graph::addEdge(src, dest, w)`: validates both endpoints; on success
prepends a record to both adjacency lists (in source order: first `src`'s,
then `dest`'s) and writes `w` into both matrix cells; otherwise no-op. -/
def Graph.addEdge (g : Graph) (src dest : Int) (w : Int) : Graph :=
  if 0 ≤ src ∧ src < g.vertices ∧ 0 ≤ dest ∧ dest < g.vertices then
    let s := src.toNat
    let d := dest.toNat
    let a1 := Function.update g.array s (AdjList.AddEdge (g.array s) d w)
    let a2 := Function.update a1 d (AdjList.AddEdge (a1 d) s w)
    let m1 := fun i j =>
      if (i = s ∧ j = d) ∨ (i = d ∧ j = s) then w else g.AdjMat i j
    { g with array := a2, AdjMat := m1 }
  else g

/-- Sum of all adjacency-list lengths (twice the edge count). -/
def totalAdj (g : Graph) : Nat :=
  ((List.range g.vertices).map (fun i => (g.array i).length)).sum

/-- The neighbour scan of `Graph::BFS`: walk one adjacency list head to tail;
each unvisited destination is marked visited and enqueued (queue is a list,
front first, enqueue appends at the rear). -/
def scanAdj (adj : List (Nat × Int)) (vis : Nat → Bool) (q : List Nat) :
    (Nat → Bool) × List Nat :=
  match adj with
  | [] => (vis, q)
  | (d, _) :: rest =>
    if vis d then scanAdj rest vis q
    else scanAdj rest (Function.update vis d true) (q ++ [d])

/-- The `while (!q.isEmpty())` loop of `Graph::BFS`: dequeue the front vertex,
append it to the output, scan its adjacency list.  Returns the list of values
written to the output buffer, in write order (the i-th write lands at buffer
index i because the C++ code writes `buffer[count++]`). -/
def BFSloop (g : Graph) : Nat → List Nat → (Nat → Bool) → List Nat → List Nat
  | 0, _, _, out => out
  | _ + 1, [], _, out => out
  | fuel + 1, curr :: qrest, vis, out =>
    let p := scanAdj (g.array curr) vis qrest
    BFSloop g fuel p.2 p.1 (out ++ [curr])

/-- Embeds `Graph::BFS(startIndex, buffer)`: mark and enqueue the start, run the
loop.  The loop performs exactly one iteration per enqueue, and (for graphs
whose stored destinations are in range) at most `vertices` enqueues ever
happen, so fuel `vertices` is exact; this is proved below. -/
def Graph.BFS (g : Graph) (startIndex : Nat) : List Nat :=
  BFSloop g g.vertices [startIndex]
    (Function.update (fun _ => false) startIndex true) []

/-- Materialise the buffer writes `buffer[i] = out[i]` (`i = k, k+1, ...`) on
a caller-provided buffer, as the C++ `buffer[count++] = v` writes do. -/
def writeBuf : List Nat → Nat → List Int → List Int
  | [], _, b => b
  | v :: rest, i, b => writeBuf rest (i + 1) (b.set i (Int.ofNat v))

/-- The neighbour scan of `Graph::DFS`: walk the adjacency list head to tail,
pushing every currently-unvisited destination (stack is a list, top first,
push prepends). -/
def dfsScan (adj : List (Nat × Int)) (vis : Nat → Bool) (st : List Nat) :
    List Nat :=
  match adj with
  | [] => st
  | (d, _) :: rest => dfsScan rest vis (if vis d then st else d :: st)

/-- The `while (!s.isEmpty())` loop of `Graph::DFS`: pop the top vertex; if it
is unvisited, write it to the output and mark it; then (in either case) scan
its adjacency list pushing unvisited destinations. -/
def DFSloop (g : Graph) : Nat → List Nat → (Nat → Bool) → List Nat → List Nat
  | 0, _, _, out => out
  | _ + 1, [], _, out => out
  | fuel + 1, curr :: srest, vis, out =>
    if vis curr then
      DFSloop g fuel (dfsScan (g.array curr) vis srest) vis out
    else
      DFSloop g fuel (dfsScan (g.array curr) (Function.update vis curr true) srest)
        (Function.update vis curr true) (out ++ [curr])

/-- Embeds `Graph::DFS(startIndex, buffer)`: push the start unmarked and run the
loop.  The fuel generously dominates the loop's iteration count (between two
consecutive markings the stack only shrinks, so the source loop terminates;
the safety theorems below hold for every fuel). -/
def Graph.DFS (g : Graph) (startIndex : Nat) : List Nat :=
  DFSloop g ((g.vertices + 1) * (totalAdj g + 2) * (totalAdj g + 2)) [startIndex]
    (fun _ => false) []

/-- The neighbour scan of `Graph::PrimsAlgorithm`: for each record `(v, w)`
with `v` unvisited and `w < key[v]`, update `key[v]` and `parentBuffer[v]` and
push `(v, key[v])`. -/
def primScan (adj : List (Nat × Int)) (u : Nat) (h : Heap) (key : List Int)
    (vis : Nat → Bool) (parent : List Int) : Heap × List Int × List Int :=
  match adj with
  | [] => (h, key, parent)
  | (v, w) :: rest =>
    if vis v = false ∧ w < key.getD v 0 then
      primScan rest u (h.InsertKey v w) (key.set v w) vis (parent.set v (Int.ofNat u))
    else primScan rest u h key vis parent

/-- The `while (!h.isEmpty())` loop of `Graph::PrimsAlgorithm`: extract-min;
skip stale entries whose vertex is already visited; otherwise mark visited and
scan the adjacency list. -/
def primLoop (g : Graph) :
    Nat → Heap → List Int → (Nat → Bool) → List Int → List Int
  | 0, _, _, _, parent => parent
  | fuel + 1, h, key, vis, parent =>
    if h.isEmpty then parent
    else
      let e := h.ExtractMin
      let u := e.1.vertex
      if vis u then primLoop g fuel e.2 key vis parent
      else
        let r := primScan (g.array u) u e.2 key (Function.update vis u true) parent
        primLoop g fuel r.1 r.2.1 (Function.update vis u true) r.2.2

/-- Embeds `Graph::PrimsAlgorithm(startIndex, parentBuffer)`: keys start at
`INT_MAX`, parents at `-1`; `key[start] = 0`, push `(start, 0)`, run the
lazy-deletion loop.  The heap capacity is `vertices * vertices` as in the
constructor call; the fuel dominates the number of extractions (each scanned
vertex is scanned once, so at most `1 + totalAdj` insertions ever happen). -/
def Graph.PrimsAlgorithm (g : Graph) (startIndex : Nat) : List Int :=
  primLoop g (2 + g.vertices + totalAdj g)
    ((Heap.init (g.vertices * g.vertices)).InsertKey startIndex 0)
    ((List.replicate g.vertices INT_MAX).set startIndex 0)
    (fun _ => false)
    (List.replicate g.vertices (-1))

/-- The neighbour scan of `Graph::DijkstraAlgorithm`: relax each record
`(v, w)`: when `dist[u] != INT_MAX` and `dist[u] + w < dist[v]`, update
`dist[v]` and push `(v, dist[v])`. -/
def dijkstraScan (adj : List (Nat × Int)) (u : Nat) (h : Heap)
    (dist : List Int) : Heap × List Int :=
  match adj with
  | [] => (h, dist)
  | (v, w) :: rest =>
    if dist.getD u 0 ≠ INT_MAX ∧ dist.getD u 0 + w < dist.getD v 0 then
      dijkstraScan rest u (h.InsertKey v (dist.getD u 0 + w))
        (dist.set v (dist.getD u 0 + w))
    else dijkstraScan rest u h dist

/-- The `while (!h.isEmpty())` loop of `Graph::DijkstraAlgorithm`:
extract-min `(u, d)`; skip when `d > dist[u]` (stale entry); otherwise relax
`u`'s adjacency list. -/
def dijkstraLoop (g : Graph) : Nat → Heap → List Int → List Int
  | 0, _, dist => dist
  | fuel + 1, h, dist =>
    if h.isEmpty then dist
    else
      let e := h.ExtractMin
      let u := e.1.vertex
      let d := e.1.key
      if d > dist.getD u 0 then dijkstraLoop g fuel e.2 dist
      else
        let r := dijkstraScan (g.array u) u e.2 dist
        dijkstraLoop g fuel r.1 r.2

/-- Embeds `Graph::DijkstraAlgorithm(startIndex, distBuffer)`: distances start at
`INT_MAX`, `dist[start] = 0`, push `(start, 0)`, run the loop.  Heap capacity
`vertices * vertices` as in the source; fuel dominates the extraction count
(per vertex, inserted keys strictly decrease, so insertions are bounded by
`1 + totalAdj`). -/
def Graph.DijkstraAlgorithm (g : Graph) (startIndex : Nat) : List Int :=
  dijkstraLoop g (2 + g.vertices + totalAdj g)
    ((Heap.init (g.vertices * g.vertices)).InsertKey startIndex 0)
    ((List.replicate g.vertices INT_MAX).set startIndex 0)

/-- Well-formedness maintained by the `Graph` API: every edge record stored in
the adjacency list of an in-range vertex points at an in-range vertex
(`addEdge` validates both endpoints before storing). -/
def Graph.WF (g : Graph) : Prop :=
  ∀ i < g.vertices, ∀ p ∈ g.array i, p.1 < g.vertices

instance (g : Graph) : Decidable g.WF := by
  unfold Graph.WF; infer_instance

/-- Reachability along stored adjacency records, starting from `s`. -/
inductive Reach (g : Graph) (s : Nat) : Nat → Prop
  | refl : Reach g s s
  | step {u : Nat} {p : Nat × Int} : Reach g s u → p ∈ g.array u → Reach g s p.1

/-- Number of vertices of `g` not yet marked in `vis`. -/
def unvisCard (g : Graph) (vis : Nat → Bool) : Nat :=
  ((Finset.range g.vertices).filter (fun v => vis v = false)).card

/-- The path graph of §8: a fresh 4-vertex graph after
`addEdge(0,1,1), addEdge(1,2,1), addEdge(2,3,1)` in that order. -/
def pathGraph : Graph :=
  (((Graph.init 4).addEdge 0 1 1).addEdge 1 2 1).addEdge 2 3 1

/-- The Prim test graph of §8: a fresh 4-vertex graph after
`addEdge(0,1,1), addEdge(1,2,2), addEdge(0,2,4), addEdge(2,3,1)`. -/
def primGraph : Graph :=
  ((((Graph.init 4).addEdge 0 1 1).addEdge 1 2 2).addEdge 0 2 4).addEdge 2 3 1

/-- The Dijkstra test graph of §8 on `n` vertices: a fresh graph after
`addEdge(0,1,4), addEdge(0,2,1), addEdge(2,1,1)`. -/
def dijGraph (n : Nat) : Graph :=
  (((Graph.init n).addEdge 0 1 4).addEdge 0 2 1).addEdge 2 1 1

theorem getD_set_self {α : Type _} (l : List α) (i : Nat) (x d : α)
    (h : i < l.length) : (l.set i x).getD i d = x := by
  induction l generalizing i with
  | nil => simp at h
  | cons a t ih =>
    cases i with
    | zero => rfl
    | succ j => exact ih j (Nat.lt_of_succ_lt_succ h)

theorem getD_set_ne {α : Type _} (l : List α) (i j : Nat) (x d : α)
    (h : i ≠ j) : (l.set i x).getD j d = l.getD j d := by
  induction l generalizing i j with
  | nil => rfl
  | cons a t ih =>
    cases i with
    | zero => cases j with
      | zero => exact absurd rfl h
      | succ j2 => rfl
    | succ i2 => cases j with
      | zero => rfl
      | succ j2 => exact ih i2 j2 (fun hc => h (by rw [hc]))

theorem getD_replicate {α : Type _} (n i : Nat) (x d : α) (h : i < n) :
    (List.replicate n x).getD i d = x := by
  induction n generalizing i with
  | zero => omega
  | succ m ih =>
    cases i with
    | zero => rfl
    | succ j => exact ih j (Nat.lt_of_succ_lt_succ h)

theorem nodup_lt_length_le (l : List Nat) (n : Nat) (hd : l.Nodup)
    (hb : ∀ v ∈ l, v < n) : l.length ≤ n := by
  have h1 : l.toFinset ⊆ Finset.range n := by
    intro v hv
    exact Finset.mem_range.2 (hb v (List.mem_toFinset.1 hv))
  have h2 := Finset.card_le_card h1
  rw [List.toFinset_card_of_nodup hd, Finset.card_range] at h2
  exact h2

theorem hset_length (a : List HNode) (i : Nat) (x : HNode) :
    (hset a i x).length = a.length := by
  unfold hset; exact List.length_set a (i - 1) x

theorem percolateUp_length (fuel : Nat) (a : List HNode) (i : Nat) :
    (percolateUp fuel a i).length = a.length := by
  induction fuel generalizing a i with
  | zero => rfl
  | succ f ih =>
    unfold percolateUp
    split
    · rw [ih, hset_length, hset_length]
    · rfl

theorem percolateDown_length (fuel : Nat) (a : List HNode) (i : Nat) :
    (percolateDown fuel a i).length = a.length := by
  induction fuel generalizing a i with
  | zero => rfl
  | succ f ih =>
    unfold percolateDown
    simp only []
    repeat' split
    all_goals first
      | rw [ih, hset_length, hset_length]
      | rfl

theorem InsertKey_capacity (h : Heap) (v : Nat) (k : Int) :
    (h.InsertKey v k).capacity = h.capacity := by
  unfold Heap.InsertKey; split <;> rfl

theorem ExtractMin_capacity (h : Heap) :
    (h.ExtractMin).2.capacity = h.capacity := by
  unfold Heap.ExtractMin
  match h with
  | ⟨[], c⟩ => rfl
  | ⟨x :: t, c⟩ => rfl

theorem InsertKey_length_le (h : Heap) (v : Nat) (k : Int)
    (hle : h.arr.length ≤ h.capacity) :
    (h.InsertKey v k).arr.length ≤ h.capacity := by
  unfold Heap.InsertKey
  split
  · exact hle
  · next hfull =>
    simp only [percolateUp_length, List.length_append, List.length_singleton]
    omega

theorem ExtractMin_length_le (h : Heap) :
    (h.ExtractMin).2.arr.length ≤ h.arr.length := by
  unfold Heap.ExtractMin
  match h with
  | ⟨[], c⟩ => exact Nat.le_refl _
  | ⟨x :: t, c⟩ =>
    simp only [percolateDown_length, List.length_take, hset_length]
    omega

theorem runOps_capacity (h : Heap) (ops : List HeapOp) :
    (runOps h ops).capacity = h.capacity := by
  induction ops generalizing h with
  | nil => rfl
  | cons op rest ih =>
    cases op with
    | insert v k => rw [runOps, ih, InsertKey_capacity]
    | extract => rw [runOps, ih, ExtractMin_capacity]

theorem runOps_length_le (h : Heap) (ops : List HeapOp)
    (hle : h.arr.length ≤ h.capacity) :
    (runOps h ops).arr.length ≤ (runOps h ops).capacity := by
  induction ops generalizing h with
  | nil => exact hle
  | cons op rest ih =>
    cases op with
    | insert v k =>
      rw [runOps]
      exact ih _ (by rw [InsertKey_capacity]; exact InsertKey_length_le h v k hle)
    | extract =>
      rw [runOps]
      exact ih _ (by rw [ExtractMin_capacity]
                     exact Nat.le_trans (ExtractMin_length_le h) hle)

/-- C7: over every sequence of `InsertKey` / `ExtractMin` operations starting
from a heap constructed with capacity `c`, the heap size never exceeds `c`;
and `InsertKey` on any heap whose size equals its capacity returns the heap
unchanged (the entry is silently dropped). -/
theorem heap_size_le_capacity (c : Nat) (ops : List HeapOp) :
    (runOps (Heap.init c) ops).arr.length ≤ c ∧
    ∀ h : Heap, h.arr.length = h.capacity → ∀ v k, h.InsertKey v k = h := by
  constructor
  · have := runOps_length_le (Heap.init c) ops (by simp [Heap.init])
    rwa [runOps_capacity] at this
  · intro h hfull v k
    unfold Heap.InsertKey
    rw [if_pos (Nat.le_of_eq hfull.symm)]

theorem heap_size_le_capacity_witness :
    (runOps (Heap.init 2) [HeapOp.insert 0 5, HeapOp.insert 1 3, HeapOp.insert 2 4]).arr.length ≤ 2 ∧
    Heap.InsertKey ⟨[⟨1, 3⟩, ⟨0, 5⟩], 2⟩ 2 4 = ⟨[⟨1, 3⟩, ⟨0, 5⟩], 2⟩ :=
  ⟨(heap_size_le_capacity 2 _).1,
   (heap_size_le_capacity 2 []).2 ⟨[⟨1, 3⟩, ⟨0, 5⟩], 2⟩ (by decide) 2 4⟩

/-- C6: `addEdge` with `u` or `v` outside `[0, vertices)` signals no error and
leaves the entire graph state (every adjacency list and matrix cell)
unchanged: it returns the graph itself. -/
theorem addEdge_invalid_noop (g : Graph) (u v w : Int)
    (h : ¬(0 ≤ u ∧ u < (g.vertices : Int) ∧ 0 ≤ v ∧ v < (g.vertices : Int))) :
    g.addEdge u v w = g := by
  unfold Graph.addEdge
  rw [if_neg h]

theorem addEdge_invalid_noop_witness :
    ¬((0 : Int) ≤ -1 ∧ (-1 : Int) < ((Graph.init 2).vertices : Int) ∧
      (0 : Int) ≤ 0 ∧ (0 : Int) < ((Graph.init 2).vertices : Int)) ∧
    (Graph.init 2).addEdge (-1) 0 5 = Graph.init 2 :=
  ⟨by decide, addEdge_invalid_noop (Graph.init 2) (-1) 0 5 (by decide)⟩

/-- C5: after a valid `addEdge(u, v, w)`, `u`'s adjacency list contains the
record `(v, w)`, `v`'s adjacency list contains `(u, w)`, and both matrix
cells `matrix[u][v]`, `matrix[v][u]` equal `w`. -/
theorem addEdge_symmetric (g : Graph) (u v w : Int)
    (hu0 : 0 ≤ u) (hu : u < (g.vertices : Int))
    (hv0 : 0 ≤ v) (hv : v < (g.vertices : Int)) :
    (v.toNat, w) ∈ (g.addEdge u v w).array u.toNat ∧
    (u.toNat, w) ∈ (g.addEdge u v w).array v.toNat ∧
    (g.addEdge u v w).AdjMat u.toNat v.toNat = w ∧
    (g.addEdge u v w).AdjMat v.toNat u.toNat = w := by
  unfold Graph.addEdge
  rw [if_pos ⟨hu0, hu, hv0, hv⟩]
  by_cases hvu : v.toNat = u.toNat
  · simp [Function.update, AdjList.AddEdge, hvu]
  · simp [Function.update, AdjList.AddEdge, hvu, Ne.symm hvu]

theorem addEdge_symmetric_witness :
    ((0 : Int) ≤ 0 ∧ (0 : Int) < ((Graph.init 2).vertices : Int) ∧
     (0 : Int) ≤ 1 ∧ (1 : Int) < ((Graph.init 2).vertices : Int)) ∧
    ((1 : Int).toNat, (7 : Int)) ∈ ((Graph.init 2).addEdge 0 1 7).array (0 : Int).toNat ∧
    ((0 : Int).toNat, (7 : Int)) ∈ ((Graph.init 2).addEdge 0 1 7).array (1 : Int).toNat ∧
    ((Graph.init 2).addEdge 0 1 7).AdjMat (0 : Int).toNat (1 : Int).toNat = 7 ∧
    ((Graph.init 2).addEdge 0 1 7).AdjMat (1 : Int).toNat (0 : Int).toNat = 7 :=
  ⟨⟨by decide, by decide, by decide, by decide⟩,
   addEdge_symmetric (Graph.init 2) 0 1 7 (by decide) (by decide) (by decide) (by decide)⟩

/-- C2: on the fixed 4-vertex test graph with edges
`(0,1,1), (1,2,2), (0,2,4), (2,3,1)` inserted in that order,
`PrimsAlgorithm(0)` produces parent buffer `[-1, 0, 1, 2]`, i.e. tree edges
`0-1`, `1-2`, `2-3`, whose weights sum to `4`. -/
theorem prim_test_graph_mst :
    primGraph.PrimsAlgorithm 0 = [-1, 0, 1, 2] ∧
    primGraph.AdjMat 0 1 + primGraph.AdjMat 1 2 + primGraph.AdjMat 2 3 = 4 := by
  decide

/-- C4: on the 4-vertex path graph with edges `(0,1,1), (1,2,1), (2,3,1)`
inserted in that order, both `BFS(0)` and `DFS(0)` write exactly the sequence
`[0, 1, 2, 3]` (the i-th written value lands at buffer index i). -/
theorem path_graph_traversals :
    pathGraph.BFS 0 = [0, 1, 2, 3] ∧ pathGraph.DFS 0 = [0, 1, 2, 3] := by
  decide

theorem dfsScan_mem (adj : List (Nat × Int)) (vis : Nat → Bool) (st : List Nat) :
    ∀ v ∈ dfsScan adj vis st, v ∈ st ∨ ∃ p ∈ adj, p.1 = v := by
  induction adj generalizing st with
  | nil => intro v hv; exact Or.inl hv
  | cons hd tl ih =>
    obtain ⟨d, w⟩ := hd
    intro v hv
    rw [dfsScan] at hv
    rcases ih _ v hv with h | ⟨p, hp, he⟩
    · by_cases hvd : vis d = true
      · rw [if_pos hvd] at h
        exact Or.inl h
      · rw [if_neg hvd] at h
        rcases List.mem_cons.1 h with h2 | h2
        · exact Or.inr ⟨(d, w), List.mem_cons_self _ _, h2.symm⟩
        · exact Or.inl h2
    · exact Or.inr ⟨p, List.mem_cons_of_mem _ hp, he⟩

theorem DFSloop_safe (g : Graph) (hWF : g.WF) :
    ∀ (fuel : Nat) (st : List Nat) (vis : Nat → Bool) (out : List Nat),
    (∀ v ∈ st, v < g.vertices) →
    (∀ v ∈ out, v < g.vertices) →
    out.Nodup →
    (∀ v, vis v = true ↔ v ∈ out) →
    (DFSloop g fuel st vis out).Nodup ∧
    ∀ v ∈ DFSloop g fuel st vis out, v < g.vertices := by
  intro fuel
  induction fuel with
  | zero =>
    intro st vis out h1 h2 h3 h4
    rw [DFSloop]
    exact ⟨h3, h2⟩
  | succ f ih =>
    intro st vis out h1 h2 h3 h4
    match st with
    | [] =>
      rw [DFSloop]
      exact ⟨h3, h2⟩
    | curr :: srest =>
      rw [DFSloop]
      have hcurr : curr < g.vertices := h1 curr (List.mem_cons_self _ _)
      have hsrest : ∀ v ∈ srest, v < g.vertices :=
        fun v hv => h1 v (List.mem_cons_of_mem _ hv)
      have hscan : ∀ vis2 : Nat → Bool,
          ∀ v ∈ dfsScan (g.array curr) vis2 srest, v < g.vertices := by
        intro vis2 v hv
        rcases dfsScan_mem _ _ _ v hv with h | ⟨p, hp, he⟩
        · exact hsrest v h
        · exact he ▸ hWF curr hcurr p hp
      split
      · exact ih _ _ _ (hscan vis) h2 h3 h4
      · next hvc =>
        have hco : curr ∉ out := fun hc => hvc ((h4 curr).2 hc)
        refine ih _ _ _ (hscan _) ?_ ?_ ?_
        · intro v hv
          rcases List.mem_append.1 hv with h | h
          · exact h2 v h
          · rw [List.mem_singleton.1 h]
            exact hcurr
        · rw [List.nodup_append]
          refine ⟨h3, List.nodup_singleton _, ?_⟩
          intro a ha ha2
          rw [List.mem_singleton.1 ha2] at ha
          exact hco ha
        · intro v
          rw [Function.update_apply]
          by_cases hv2 : v = curr
          · subst hv2
            simp
          · rw [if_neg hv2]
            simp only [List.mem_append, List.mem_singleton, hv2, or_false]
            exact h4 v

/-- C10: for every well-formed graph and in-range start, `DFS` writes each
vertex id at most once (the pop-time visited check filters duplicate stack
entries), so at most `vertices` buffer writes happen and every write lands at
an index below `vertices` (the i-th write lands at index i). -/
theorem DFS_writes_bounded (g : Graph) (s : Nat) (hWF : g.WF)
    (hs : s < g.vertices) :
    (g.DFS s).Nodup ∧ (g.DFS s).length ≤ g.vertices := by
  have main := DFSloop_safe g hWF ((g.vertices + 1) * (totalAdj g + 2) * (totalAdj g + 2))
    [s] (fun _ => false) []
    (by intro v hv; rw [List.mem_singleton.1 hv]; exact hs)
    (by intro v hv; exact absurd hv (List.not_mem_nil v))
    List.nodup_nil
    (by intro v; simp)
  rw [Graph.DFS]
  exact ⟨main.1, nodup_lt_length_le _ _ main.1 main.2⟩

theorem DFS_writes_bounded_witness :
    pathGraph.WF ∧ 0 < pathGraph.vertices ∧
    (pathGraph.DFS 0).Nodup ∧ (pathGraph.DFS 0).length ≤ pathGraph.vertices :=
  ⟨by decide, by decide, DFS_writes_bounded pathGraph 0 (by decide) (by decide)⟩

theorem scanAdj_vis_monotone (adj : List (Nat × Int)) (vis : Nat → Bool)
    (q : List Nat) (v : Nat) (hv : vis v = true) :
    (scanAdj adj vis q).1 v = true := by
  induction adj generalizing vis q with
  | nil => exact hv
  | cons hd tl ih =>
    obtain ⟨d, w⟩ := hd
    rw [scanAdj]
    by_cases hd2 : vis d = true
    · rw [if_pos hd2]
      exact ih vis q hv
    · rw [if_neg hd2]
      refine ih _ _ ?_
      rw [Function.update_apply]
      split
      · rfl
      · exact hv

theorem scanAdj_vis_iff (adj : List (Nat × Int)) (vis : Nat → Bool)
    (q : List Nat) (v : Nat) :
    (scanAdj adj vis q).1 v = true ↔ vis v = true ∨ ∃ p ∈ adj, p.1 = v := by
  induction adj generalizing vis q with
  | nil => simp [scanAdj]
  | cons hd tl ih =>
    obtain ⟨d, w⟩ := hd
    rw [scanAdj]
    by_cases hd2 : vis d = true
    · rw [if_pos hd2, ih]
      constructor
      · rintro (h | ⟨p, hp, he⟩)
        · exact Or.inl h
        · exact Or.inr ⟨p, List.mem_cons_of_mem _ hp, he⟩
      · rintro (h | ⟨p, hp, he⟩)
        · exact Or.inl h
        · rcases List.mem_cons.1 hp with h2 | h2
          · subst h2
            exact Or.inl (he ▸ hd2)
          · exact Or.inr ⟨p, h2, he⟩
    · rw [if_neg hd2, ih]
      by_cases hvd : v = d
      · subst hvd
        simp only [Function.update_same]
        constructor
        · intro _
          exact Or.inr ⟨(v, w), List.mem_cons_self _ _, rfl⟩
        · intro _
          exact Or.inl trivial
      · rw [Function.update_noteq hvd]
        constructor
        · rintro (h | ⟨p, hp, he⟩)
          · exact Or.inl h
          · exact Or.inr ⟨p, List.mem_cons_of_mem _ hp, he⟩
        · rintro (h | ⟨p, hp, he⟩)
          · exact Or.inl h
          · rcases List.mem_cons.1 hp with h2 | h2
            · exact absurd (h2 ▸ he).symm hvd
            · exact Or.inr ⟨p, h2, he⟩

theorem scanAdj_queue_iff (adj : List (Nat × Int)) (vis : Nat → Bool)
    (q : List Nat) (v : Nat) :
    v ∈ (scanAdj adj vis q).2 ↔
      v ∈ q ∨ (vis v = false ∧ ∃ p ∈ adj, p.1 = v) := by
  induction adj generalizing vis q with
  | nil => simp [scanAdj]
  | cons hd tl ih =>
    obtain ⟨d, w⟩ := hd
    rw [scanAdj]
    by_cases hd2 : vis d = true
    · rw [if_pos hd2, ih]
      constructor
      · rintro (h | ⟨hf, p, hp, he⟩)
        · exact Or.inl h
        · exact Or.inr ⟨hf, p, List.mem_cons_of_mem _ hp, he⟩
      · rintro (h | ⟨hf, p, hp, he⟩)
        · exact Or.inl h
        · rcases List.mem_cons.1 hp with h2 | h2
          · rw [← he, h2] at hf
            rw [hf] at hd2
            exact absurd hd2 (by simp)
          · exact Or.inr ⟨hf, p, h2, he⟩
    · rw [if_neg hd2, ih]
      by_cases hvd : v = d
      · subst hvd
        simp only [Function.update_same, List.mem_append, List.mem_singleton]
        constructor
        · intro _
          exact Or.inr ⟨Bool.not_eq_true _ ▸ (by simpa using hd2), (v, w),
            List.mem_cons_self _ _, rfl⟩
        · intro _
          exact Or.inl (Or.inr trivial)
      · rw [Function.update_noteq hvd]
        simp only [List.mem_append, List.mem_singleton, hvd, or_false]
        constructor
        · rintro (h | ⟨hf, p, hp, he⟩)
          · exact Or.inl h
          · exact Or.inr ⟨hf, p, List.mem_cons_of_mem _ hp, he⟩
        · rintro (h | ⟨hf, p, hp, he⟩)
          · exact Or.inl h
          · rcases List.mem_cons.1 hp with h2 | h2
            · exact absurd (h2 ▸ he).symm hvd
            · exact Or.inr ⟨hf, p, h2, he⟩

theorem scanAdj_nodup (adj : List (Nat × Int)) (vis : Nat → Bool)
    (q acc : List Nat) (h1 : (acc ++ q).Nodup)
    (h2 : ∀ v ∈ acc ++ q, vis v = true) :
    (acc ++ (scanAdj adj vis q).2).Nodup ∧
    ∀ v ∈ acc ++ (scanAdj adj vis q).2, (scanAdj adj vis q).1 v = true := by
  induction adj generalizing vis q with
  | nil => exact ⟨h1, h2⟩
  | cons hd tl ih =>
    obtain ⟨d, w⟩ := hd
    rw [scanAdj]
    by_cases hd2 : vis d = true
    · rw [if_pos hd2]
      exact ih vis q h1 h2
    · rw [if_neg hd2]
      have hdn : d ∉ acc ++ q := fun hc => hd2 (h2 d hc)
      refine ih _ _ ?_ ?_
      · rw [← List.append_assoc, List.nodup_append]
        refine ⟨h1, List.nodup_singleton _, ?_⟩
        intro a ha ha2
        rw [List.mem_singleton.1 ha2] at ha
        exact hdn ha
      · intro v hv
        rw [Function.update_apply]
        split
        · rfl
        · next hvd =>
          refine h2 v ?_
          rw [← List.append_assoc] at hv
          rcases List.mem_append.1 hv with h | h
          · exact h
          · exact absurd (List.mem_singleton.1 h) hvd

theorem unvisCard_false (g : Graph) : unvisCard g (fun _ => false) = g.vertices := by
  simp [unvisCard]

theorem unvisCard_update (g : Graph) (vis : Nat → Bool) (d : Nat)
    (hd : d < g.vertices) (hf : vis d = false) :
    unvisCard g (Function.update vis d true) + 1 = unvisCard g vis := by
  unfold unvisCard
  have he : (Finset.range g.vertices).filter
      (fun v => Function.update vis d true v = false) =
      ((Finset.range g.vertices).filter (fun v => vis v = false)).erase d := by
    ext v
    rw [Finset.mem_erase, Finset.mem_filter, Finset.mem_filter,
      Function.update_apply]
    constructor
    · rintro ⟨hr, hv⟩
      split at hv
      · exact absurd hv (by simp)
      · next hne => exact ⟨hne, hr, hv⟩
    · rintro ⟨hne, hr, hv⟩
      rw [if_neg hne]
      exact ⟨hr, hv⟩
  rw [he]
  exact Finset.card_erase_add_one
    (Finset.mem_filter.2 ⟨Finset.mem_range.2 hd, hf⟩)

theorem scanAdj_measure (g : Graph) (adj : List (Nat × Int)) (vis : Nat → Bool)
    (q : List Nat) (hr : ∀ p ∈ adj, p.1 < g.vertices) :
    unvisCard g (scanAdj adj vis q).1 + (scanAdj adj vis q).2.length =
      unvisCard g vis + q.length := by
  induction adj generalizing vis q with
  | nil => rfl
  | cons hd tl ih =>
    obtain ⟨d, w⟩ := hd
    rw [scanAdj]
    have hrt : ∀ p ∈ tl, p.1 < g.vertices :=
      fun p hp => hr p (List.mem_cons_of_mem _ hp)
    by_cases hd2 : vis d = true
    · rw [if_pos hd2]
      exact ih vis q hrt
    · rw [if_neg hd2]
      rw [ih _ _ hrt]
      have := unvisCard_update g vis d (hr (d, w) (List.mem_cons_self _ _))
        (by simpa using hd2)
      simp only [List.length_append, List.length_singleton]
      omega

theorem BFSloop_nil (g : Graph) (fuel : Nat) (vis : Nat → Bool) (out : List Nat) :
    BFSloop g fuel [] vis out = out := by
  cases fuel <;> rfl

theorem BFSloop_spec (g : Graph) (s : Nat) (hWF : g.WF) :
    ∀ (fuel : Nat) (q : List Nat) (vis : Nat → Bool) (out : List Nat),
    (out ++ q).Nodup →
    (∀ v ∈ out ++ q, vis v = true) →
    (∀ v, vis v = true → v ∈ out ++ q) →
    (∀ v ∈ out ++ q, v < g.vertices) →
    (∀ u ∈ out, ∀ p ∈ g.array u, vis p.1 = true) →
    (∀ v ∈ out ++ q, Reach g s v) →
    unvisCard g vis + q.length ≤ fuel →
    (BFSloop g fuel q vis out).Nodup ∧
    (∃ tail, BFSloop g fuel q vis out = out ++ tail) ∧
    (∀ v ∈ out ++ q, v ∈ BFSloop g fuel q vis out) ∧
    (∀ v ∈ BFSloop g fuel q vis out, Reach g s v) ∧
    (∀ u ∈ BFSloop g fuel q vis out, ∀ p ∈ g.array u,
      p.1 ∈ BFSloop g fuel q vis out) ∧
    (∀ v ∈ BFSloop g fuel q vis out, v < g.vertices) := by
  intro fuel
  induction fuel with
  | zero =>
    intro q vis out h1 h2 h3 h4 h5 h6 h7
    have hq : q = [] := List.length_eq_zero.1 (by omega)
    subst hq
    rw [BFSloop_nil]
    simp only [List.append_nil] at h1 h2 h3 h4 h6 ⊢
    exact ⟨h1, ⟨[], by simp⟩, fun v hv => hv, h6,
      fun u hu p hp => h3 p.1 (h5 u hu p hp), h4⟩
  | succ f ih =>
    intro q vis out h1 h2 h3 h4 h5 h6 h7
    match q with
    | [] =>
      rw [BFSloop_nil]
      simp only [List.append_nil] at h1 h2 h3 h4 h6 ⊢
      exact ⟨h1, ⟨[], by simp⟩, fun v hv => hv, h6,
        fun u hu p hp => h3 p.1 (h5 u hu p hp), h4⟩
    | curr :: qrest =>
      have hcmem : curr ∈ out ++ curr :: qrest :=
        List.mem_append.2 (Or.inr (List.mem_cons_self _ _))
      have hcn : curr < g.vertices := h4 curr hcmem
      have hcreach : Reach g s curr := h6 curr hcmem
      have hadjr : ∀ p ∈ g.array curr, p.1 < g.vertices := hWF curr hcn
      have hrearr : out ++ curr :: qrest = (out ++ [curr]) ++ qrest := by
        rw [List.append_assoc]
        rfl
      have hnd := scanAdj_nodup (g.array curr) vis qrest (out ++ [curr])
        (by rw [← hrearr]; exact h1)
        (by intro v hv; rw [← hrearr] at hv; exact h2 v hv)
      have hsub : ∀ v ∈ out ++ curr :: qrest,
          v ∈ (out ++ [curr]) ++ (scanAdj (g.array curr) vis qrest).2 := by
        intro v hv
        rw [hrearr] at hv
        rcases List.mem_append.1 hv with h | h
        · exact List.mem_append.2 (Or.inl h)
        · exact List.mem_append.2
            (Or.inr ((scanAdj_queue_iff _ _ _ _).2 (Or.inl h)))
      have h3' : ∀ v, (scanAdj (g.array curr) vis qrest).1 v = true →
          v ∈ (out ++ [curr]) ++ (scanAdj (g.array curr) vis qrest).2 := by
        intro v hv
        rcases (scanAdj_vis_iff _ _ _ _).1 hv with h | ⟨p, hp, he⟩
        · exact hsub v (h3 v h)
        · by_cases hvv : vis v = true
          · exact hsub v (h3 v hvv)
          · exact List.mem_append.2 (Or.inr ((scanAdj_queue_iff _ _ _ _).2
              (Or.inr ⟨(by simpa using hvv), p, hp, he⟩)))
      have h4' : ∀ v ∈ (out ++ [curr]) ++ (scanAdj (g.array curr) vis qrest).2,
          v < g.vertices := by
        intro v hv
        rcases List.mem_append.1 hv with h | h
        · rcases List.mem_append.1 h with h2 | h2
          · exact h4 v (List.mem_append.2 (Or.inl h2))
          · rw [List.mem_singleton.1 h2]
            exact hcn
        · rcases (scanAdj_queue_iff _ _ _ _).1 h with h2 | ⟨_, p, hp, he⟩
          · exact h4 v (List.mem_append.2 (Or.inr (List.mem_cons_of_mem _ h2)))
          · exact he ▸ hadjr p hp
      have h5' : ∀ u ∈ out ++ [curr], ∀ p ∈ g.array u,
          (scanAdj (g.array curr) vis qrest).1 p.1 = true := by
        intro u hu p hp
        rcases List.mem_append.1 hu with h | h
        · exact scanAdj_vis_monotone _ _ _ _ (h5 u h p hp)
        · rw [List.mem_singleton.1 h] at hp
          exact (scanAdj_vis_iff _ _ _ _).2 (Or.inr ⟨p, hp, rfl⟩)
      have h6' : ∀ v ∈ (out ++ [curr]) ++ (scanAdj (g.array curr) vis qrest).2,
          Reach g s v := by
        intro v hv
        rcases List.mem_append.1 hv with h | h
        · rcases List.mem_append.1 h with h2 | h2
          · exact h6 v (List.mem_append.2 (Or.inl h2))
          · rw [List.mem_singleton.1 h2]
            exact hcreach
        · rcases (scanAdj_queue_iff _ _ _ _).1 h with h2 | ⟨_, p, hp, he⟩
          · exact h6 v (List.mem_append.2 (Or.inr (List.mem_cons_of_mem _ h2)))
          · exact he ▸ Reach.step hcreach hp
      have h7' : unvisCard g (scanAdj (g.array curr) vis qrest).1 +
          (scanAdj (g.array curr) vis qrest).2.length ≤ f := by
        have := scanAdj_measure g (g.array curr) vis qrest hadjr
        simp only [List.length_cons] at h7
        omega
      have main := ih (scanAdj (g.array curr) vis qrest).2
        (scanAdj (g.array curr) vis qrest).1 (out ++ [curr])
        hnd.1 hnd.2 h3' h4' h5' h6' h7'
      obtain ⟨mA, ⟨tail, mB⟩, mC, mD, mE, mF⟩ := main
      rw [BFSloop]
      refine ⟨mA, ⟨[curr] ++ tail, by rw [mB, List.append_assoc]⟩, ?_, mD, mE, mF⟩
      intro v hv
      exact mC v (hsub v hv)

theorem BFS_correct (g : Graph) (s : Nat) (hWF : g.WF) (hs : s < g.vertices) :
    (g.BFS s).Nodup ∧ (∀ v, v ∈ g.BFS s ↔ Reach g s v) ∧
    (∀ v ∈ g.BFS s, v < g.vertices) := by
  have hvis : ∀ v, (Function.update (fun _ => false) s true) v = true ↔ v = s := by
    intro v
    rw [Function.update_apply]
    split
    · next h => simp [h]
    · next h => simp [h]
  have hmeas : unvisCard g (Function.update (fun _ => false) s true) +
      ([s] : List Nat).length ≤ g.vertices := by
    have := unvisCard_update g (fun _ => false) s hs rfl
    rw [unvisCard_false] at this
    simp only [List.length_singleton]
    omega
  have main := BFSloop_spec g s hWF g.vertices [s]
    (Function.update (fun _ => false) s true) []
    (by simp)
    (by intro v hv
        simp only [List.nil_append, List.mem_singleton] at hv
        subst hv
        exact (hvis v).2 rfl)
    (by intro v hv
        simp only [List.nil_append, List.mem_singleton]
        exact (hvis v).1 hv)
    (by intro v hv
        simp only [List.nil_append, List.mem_singleton] at hv
        subst hv
        exact hs)
    (by intro u hu
        exact absurd hu (List.not_mem_nil u))
    (by intro v hv
        simp only [List.nil_append, List.mem_singleton] at hv
        subst hv
        exact Reach.refl)
    hmeas
  obtain ⟨mA, _, mC, mD, mE, mF⟩ := main
  have hcompl : ∀ v, Reach g s v →
      v ∈ BFSloop g g.vertices [s] (Function.update (fun _ => false) s true) [] := by
    intro v hr
    induction hr with
    | refl => exact mC s (by simp)
    | @step u p hu hp ih => exact mE u ih p hp
  rw [Graph.BFS]
  exact ⟨mA, fun v => ⟨mD v, hcompl v⟩, mF⟩

/-- C1: for every well-formed graph and in-range start, `BFS` writes every
vertex reachable from `start` exactly once and writes no unreachable vertex:
the output is duplicate-free and its members are exactly the vertices
reachable along stored adjacency records (the write order is the dequeue
order of the loop, which explores each dequeued vertex's records head first,
i.e. most-recently-inserted edge first). -/
theorem BFS_visits_reachable_once (g : Graph) (s : Nat) (hWF : g.WF)
    (hs : s < g.vertices) :
    (g.BFS s).Nodup ∧ ∀ v, v ∈ g.BFS s ↔ Reach g s v :=
  ⟨(BFS_correct g s hWF hs).1, (BFS_correct g s hWF hs).2.1⟩

theorem BFS_visits_reachable_once_witness :
    pathGraph.WF ∧ 0 < pathGraph.vertices ∧
    ((pathGraph.BFS 0).Nodup ∧ ∀ v, v ∈ pathGraph.BFS 0 ↔ Reach pathGraph 0 v) :=
  ⟨by decide, by decide, BFS_visits_reachable_once pathGraph 0 (by decide) (by decide)⟩

theorem writeBuf_frame (out : List Nat) :
    ∀ (k : Nat) (b : List Int) (i : Nat) (d : Int), k + out.length ≤ i →
    (writeBuf out k b).getD i d = b.getD i d := by
  induction out with
  | nil =>
    intro k b i d h
    rfl
  | cons v rest ih =>
    intro k b i d h
    rw [List.length_cons] at h
    rw [writeBuf, ih (k + 1) _ i d (by omega)]
    exact getD_set_ne b k i _ d (by omega)

/-- C9: for every well-formed graph and in-range start, `BFS` performs
exactly as many buffer writes as there are vertices reachable from `start`
(the i-th write lands at buffer index i), and every buffer entry at an index
at or beyond that count keeps the value it held before the call. -/
theorem BFS_count_and_frame (g : Graph) (s : Nat) (hWF : g.WF)
    (hs : s < g.vertices) :
    (g.BFS s).length = Set.ncard {v | Reach g s v} ∧
    ∀ (buffer : List Int) (i : Nat) (d : Int), (g.BFS s).length ≤ i →
      (writeBuf (g.BFS s) 0 buffer).getD i d = buffer.getD i d := by
  obtain ⟨mA, mIff, mRange⟩ := BFS_correct g s hWF hs
  constructor
  · have hset : {v | Reach g s v} = ↑(g.BFS s).toFinset := by
      ext v
      simp only [Set.mem_setOf_eq, Finset.mem_coe, List.mem_toFinset]
      exact (mIff v).symm
    rw [hset, Set.ncard_coe_Finset, List.toFinset_card_of_nodup mA]
  · intro buffer i d hi
    exact writeBuf_frame (g.BFS s) 0 buffer i d (by omega)

theorem BFS_count_and_frame_witness :
    pathGraph.WF ∧ 0 < pathGraph.vertices ∧
    ((pathGraph.BFS 0).length = Set.ncard {v | Reach pathGraph 0 v} ∧
     ∀ (buffer : List Int) (i : Nat) (d : Int), (pathGraph.BFS 0).length ≤ i →
       (writeBuf (pathGraph.BFS 0) 0 buffer).getD i d = buffer.getD i d) :=
  ⟨by decide, by decide, BFS_count_and_frame pathGraph 0 (by decide) (by decide)⟩

theorem hget_hset_self (a : List HNode) (i : Nat) (x : HNode)
    (h1 : 1 ≤ i) (h2 : i ≤ a.length) : hget (hset a i x) i = x :=
  getD_set_self a (i - 1) x _ (by omega)

theorem hget_hset_ne (a : List HNode) (i j : Nat) (x : HNode)
    (h1 : 1 ≤ i) (h2 : 1 ≤ j) (hne : i ≠ j) : hget (hset a i x) j = hget a j :=
  getD_set_ne a (i - 1) (j - 1) x _ (by omega)

theorem hget_swap (a : List HNode) (i j : Nat) (h1 : 1 ≤ i) (h2 : i ≤ a.length)
    (h3 : 1 ≤ j) (h4 : j ≤ a.length) (hne : i ≠ j) :
    hget (hset (hset a i (hget a j)) j (hget a i)) j = hget a i ∧
    hget (hset (hset a i (hget a j)) j (hget a i)) i = hget a j ∧
    ∀ k, 1 ≤ k → k ≠ i → k ≠ j →
      hget (hset (hset a i (hget a j)) j (hget a i)) k = hget a k := by
  refine ⟨?_, ?_, ?_⟩
  · exact hget_hset_self _ j _ h3 (by rw [hset_length]; exact h4)
  · rw [hget_hset_ne _ j i _ h3 h1 (Ne.symm hne)]
    exact hget_hset_self a i _ h1 h2
  · intro k hk1 hki hkj
    rw [hget_hset_ne _ j k _ h3 hk1 (fun hc => hkj hc.symm),
      hget_hset_ne a i k _ h1 hk1 (fun hc => hki hc.symm)]

theorem hget_append (b : List HNode) (x : HNode) (j : Nat)
    (h1 : 1 ≤ j) (h2 : j ≤ b.length) : hget (b ++ [x]) j = hget b j := by
  unfold hget
  exact List.getD_append b [x] _ (j - 1) (by omega)

theorem hget_append_last (b : List HNode) (x : HNode) :
    hget (b ++ [x]) (b.length + 1) = x := by
  unfold hget
  simp only [Nat.add_sub_cancel]
  rw [List.getD_append_right b [x] _ _ (Nat.le_refl _)]
  simp

theorem PUInv_step (a : List HNode) (i : Nat) (h2i : 2 ≤ i) (hlen : i ≤ a.length)
    (hinv : PUInv a i) (hlt : (hget a i).key < (hget a (i / 2)).key) :
    PUInv (hset (hset a i (hget a (i / 2))) (i / 2) (hget a i)) (i / 2) := by
  have hp1 : 1 ≤ i / 2 := by omega
  have hplen : i / 2 ≤ a.length := by omega
  have hne : i ≠ i / 2 := by omega
  obtain ⟨hs1, hs2, hs3⟩ := hget_swap a i (i / 2) (by omega) hlen hp1 hplen hne
  obtain ⟨c1, c2⟩ := hinv
  have hlen' : (hset (hset a i (hget a (i / 2))) (i / 2) (hget a i)).length =
      a.length := by rw [hset_length, hset_length]
  constructor
  · intro j hj2 hjlen hjne
    rw [hlen'] at hjlen
    by_cases hji : j = i
    · subst hji
      rw [show j / 2 = j / 2 from rfl]
      rw [hs1, hs2]
      exact le_of_lt hlt
    · by_cases hjc : j / 2 = i
      · rw [hjc, hs2, hs3 j (by omega) hji hjne]
        exact c2 j hj2 hjlen hjc h2i
      · by_cases hjp : j / 2 = i / 2
        · rw [hjp, hs1, hs3 j (by omega) hji hjne]
          exact le_of_lt (lt_of_lt_of_le hlt (hjp ▸ c1 j hj2 hjlen hji))
        · rw [hs3 j (by omega) hji hjne, hs3 (j / 2) (by omega) hjc hjp]
          exact c1 j hj2 hjlen hji
  · intro j hj2 hjlen hjdiv h2p
    rw [hlen'] at hjlen
    have hpp : i / 2 / 2 ≠ i := by omega
    have hppp : i / 2 / 2 ≠ i / 2 := by omega
    rw [hs3 (i / 2 / 2) (by omega) hpp hppp]
    by_cases hji : j = i
    · subst hji
      rw [hs2]
      exact c1 (j / 2) h2p hplen (Ne.symm hne)
    · have hjp : j ≠ i / 2 := by omega
      rw [hs3 j (by omega) hji hjp]
      exact le_trans (c1 (i / 2) h2p hplen (Ne.symm hne))
        (hjdiv ▸ c1 j hj2 hjlen hji)

theorem percolateUp_ordered (fuel : Nat) :
    ∀ (a : List HNode) (i : Nat), 1 ≤ i → i ≤ a.length → PUInv a i →
    i ≤ fuel → heapOrdered (percolateUp fuel a i) := by
  induction fuel with
  | zero =>
    intro a i h1 _ hinv hf
    rw [percolateUp]
    intro j hjlen hj2
    exact hinv.1 j hj2 hjlen (by omega)
  | succ f ih =>
    intro a i h1 hlen hinv hf
    rw [percolateUp]
    split
    · next hcond =>
      refine ih _ (i / 2) (by omega) ?_
        (PUInv_step a i (by omega) hlen hinv hcond.2) (by omega)
      rw [hset_length, hset_length]
      omega
    · next hcond =>
      push_neg at hcond
      intro j hjlen hj2
      by_cases hji : j = i
      · subst hji
        exact hcond (by omega)
      · exact hinv.1 j hj2 hjlen hji

theorem InsertKey_ordered (h : Heap) (v : Nat) (k : Int)
    (ho : heapOrdered h.arr) : heapOrdered (h.InsertKey v k).arr := by
  unfold Heap.InsertKey
  split
  · exact ho
  · refine percolateUp_ordered (h.arr.length + 1) (h.arr ++ [⟨v, k⟩])
      (h.arr.length + 1) (by omega) (by simp) ⟨?_, ?_⟩ (Nat.le_refl _)
    · intro j hj2 hjlen hjne
      rw [List.length_append, List.length_singleton] at hjlen
      have hjb : j ≤ h.arr.length := by omega
      rw [hget_append _ _ j (by omega) hjb,
        hget_append _ _ (j / 2) (by omega) (by omega)]
      exact ho j hjb hj2
    · intro j hj2 hjlen hjdiv _
      rw [List.length_append, List.length_singleton] at hjlen
      omega

theorem getD_take {α : Type _} (l : List α) (m n : Nat) (d : α) (h : n < m) :
    (l.take m).getD n d = l.getD n d := by
  induction l generalizing m n with
  | nil => simp
  | cons a t ih =>
    cases m with
    | zero => omega
    | succ m2 =>
      cases n with
      | zero => rfl
      | succ n2 => exact ih m2 n2 (by omega)

theorem PDInv_step (a : List HNode) (i c : Nat) (h1 : 1 ≤ i)
    (hilen : i ≤ a.length) (hc : c = 2 * i ∨ c = 2 * i + 1)
    (hclen : c ≤ a.length)
    (hmin1 : 2 * i ≤ a.length → (hget a c).key ≤ (hget a (2 * i)).key)
    (hmin2 : 2 * i + 1 ≤ a.length → (hget a c).key ≤ (hget a (2 * i + 1)).key)
    (hlt : (hget a c).key < (hget a i).key)
    (hinv : PDInv a i) :
    PDInv (hset (hset a i (hget a c)) c (hget a i)) c := by
  have hci : i < c := by omega
  have hcdiv : c / 2 = i := by omega
  obtain ⟨hs1, hs2, hs3⟩ := hget_swap a i c h1 hilen (by omega) hclen (by omega)
  obtain ⟨c1, c2⟩ := hinv
  have hlen' : (hset (hset a i (hget a c)) c (hget a i)).length = a.length := by
    rw [hset_length, hset_length]
  constructor
  · intro j hj2 hjlen hjne
    rw [hlen'] at hjlen
    by_cases hji : j = i
    · subst hji
      have hj2c : j / 2 ≠ j := by omega
      have hj2cc : j / 2 ≠ c := by omega
      rw [hs3 (j / 2) (by omega) hj2c hj2cc, hs2]
      exact c2 c (by omega) hclen hcdiv hj2
    · by_cases hjc : j = c
      · subst hjc
        rw [hcdiv, hs1, hs2]
        exact le_of_lt hlt
      · by_cases hjdiv : j / 2 = i
        · have hj2or : j = 2 * i ∨ j = 2 * i + 1 := by omega
          rw [hjdiv, hs2, hs3 j (by omega) hji hjc]
          rcases hj2or with h | h
          · exact h ▸ hmin1 (h ▸ hjlen)
          · exact h ▸ hmin2 (h ▸ hjlen)
        · have hj2c : j / 2 ≠ c := hjne
          rw [hs3 j (by omega) hji hjc, hs3 (j / 2) (by omega) hjdiv hj2c]
          exact c1 j hj2 hjlen hjdiv
  · intro j hj2 hjlen hjdiv h2c
    rw [hlen'] at hjlen
    have hji : j ≠ i := by omega
    have hjc : j ≠ c := by omega
    rw [hcdiv, hs2, hs3 j (by omega) hji hjc, ← hjdiv]
    exact c1 j hj2 hjlen (by omega)

theorem percolateDown_ordered (fuel : Nat) :
    ∀ (a : List HNode) (i : Nat), 1 ≤ i → PDInv a i →
    a.length + 1 ≤ fuel + i → heapOrdered (percolateDown fuel a i) := by
  induction fuel with
  | zero =>
    intro a i h1 hinv hf
    rw [percolateDown]
    intro j hjlen hj2
    exact hinv.1 j hj2 hjlen (by omega)
  | succ f ih =>
    intro a i h1 hinv hf
    rw [percolateDown]
    split
    · next hc1 =>
      split
      · next hc2 =>
        split
        · next hne =>
          refine ih _ (2 * i + 1) (by omega) ?_ ?_
          · exact PDInv_step a i (2 * i + 1) h1 (by omega) (Or.inr rfl) hc2.1
              (fun _ => le_of_lt hc2.2) (fun _ => le_refl _)
              (lt_trans hc2.2 hc1.2) hinv
          · rw [hset_length, hset_length]
            omega
        · next hne => exact absurd (by omega : 2 * i + 1 ≠ i) hne
      · next hc2 =>
        push_neg at hc2
        split
        · next hne =>
          refine ih _ (2 * i) (by omega) ?_ ?_
          · exact PDInv_step a i (2 * i) h1 (by omega) (Or.inl rfl) hc1.1
              (fun _ => le_refl _) (fun hr => hc2 hr) hc1.2 hinv
          · rw [hset_length, hset_length]
            omega
        · next hne => exact absurd (by omega : 2 * i ≠ i) hne
    · next hc1 =>
      push_neg at hc1
      split
      · next hc2 =>
        split
        · next hne =>
          refine ih _ (2 * i + 1) (by omega) ?_ ?_
          · exact PDInv_step a i (2 * i + 1) h1 (by omega) (Or.inr rfl) hc2.1
              (fun hr => le_of_lt (lt_of_lt_of_le hc2.2 (hc1 hr)))
              (fun _ => le_refl _) hc2.2 hinv
          · rw [hset_length, hset_length]
            omega
        · next hne => exact absurd (by omega : 2 * i + 1 ≠ i) hne
      · next hc2 =>
        push_neg at hc2
        split
        · next hne => exact absurd rfl hne
        · next _ =>
          intro j hjlen hj2
          by_cases hdiv : j / 2 = i
          · have hj2or : j = 2 * i ∨ j = 2 * i + 1 := by omega
            rcases hj2or with h | h <;> subst h
            · rw [show 2 * i / 2 = i by omega]
              exact hc1 hjlen
            · rw [show (2 * i + 1) / 2 = i by omega]
              exact hc2 hjlen
          · exact hinv.1 j hj2 hjlen hdiv

theorem ExtractMin_ordered (h : Heap) (ho : heapOrdered h.arr) :
    heapOrdered (h.ExtractMin).2.arr := by
  obtain ⟨arr, cap⟩ := h
  cases arr with
  | nil => exact ho
  | cons x t =>
    show heapOrdered (percolateDown
      ((hset (x :: t) 1 (hget (x :: t) (x :: t).length)).take ((x :: t).length - 1)).length
      ((hset (x :: t) 1 (hget (x :: t) (x :: t).length)).take ((x :: t).length - 1)) 1)
    have hlt : ((hset (x :: t) 1 (hget (x :: t) (x :: t).length)).take
        ((x :: t).length - 1)).length = (x :: t).length - 1 := by
      rw [List.length_take, hset_length]
      omega
    have hacc : ∀ y, 2 ≤ y → y ≤ (x :: t).length - 1 →
        hget ((hset (x :: t) 1 (hget (x :: t) (x :: t).length)).take
          ((x :: t).length - 1)) y = hget (x :: t) y := by
      intro y hy2 hylen
      unfold hget
      rw [getD_take _ _ _ _ (by omega)]
      have := hget_hset_ne (x :: t) 1 y (hget (x :: t) (x :: t).length)
        (by omega) (by omega) (by omega)
      unfold hget at this
      exact this
    refine percolateDown_ordered _ _ 1 (by omega) ⟨?_, ?_⟩ (by omega)
    · intro j hj2 hjlen hjdiv
      rw [hlt] at hjlen
      rw [hacc j hj2 hjlen, hacc (j / 2) (by omega) (by omega)]
      exact ho j (by simp at hjlen ⊢; omega) hj2
    · intro j _ _ _ h21
      omega
  
theorem runOps_ordered (h : Heap) (ops : List HeapOp)
    (ho : heapOrdered h.arr) : heapOrdered (runOps h ops).arr := by
  induction ops generalizing h with
  | nil => exact ho
  | cons op rest ih =>
    cases op with
    | insert v k =>
      rw [runOps]
      exact ih _ (InsertKey_ordered h v k ho)
    | extract =>
      rw [runOps]
      exact ih _ (ExtractMin_ordered h ho)

theorem heapOrdered_root_min (a : List HNode) (ho : heapOrdered a) :
    ∀ i, 1 ≤ i → i ≤ a.length → (hget a 1).key ≤ (hget a i).key := by
  intro i
  induction i using Nat.strong_induction_on with
  | _ i ih =>
    intro h1 hlen
    by_cases hi : i = 1
    · subst hi
      exact le_refl _
    · exact le_trans (ih (i / 2) (by omega) (by omega) (by omega))
        (ho i hlen (by omega))

theorem mem_hget (a : List HNode) (x : HNode) (hx : x ∈ a) :
    ∃ i, 1 ≤ i ∧ i ≤ a.length ∧ hget a i = x := by
  obtain ⟨n, he⟩ := List.mem_iff_get.1 hx
  refine ⟨n.1 + 1, by omega, by omega, ?_⟩
  unfold hget
  simp only [Nat.add_sub_cancel]
  rw [List.getD_eq_getElem _ _ (by omega)]
  rw [← he]
  simp

theorem ExtractMin_fst (h : Heap) (hne : h.arr ≠ []) :
    (h.ExtractMin).1 = hget h.arr 1 := by
  obtain ⟨arr, cap⟩ := h
  cases arr with
  | nil => exact absurd rfl hne
  | cons x t => rfl

/-- C8: every heap state reachable from a freshly constructed heap by
`InsertKey` / `ExtractMin` operations satisfies the 1-based min-heap order,
and consequently `ExtractMin` on a non-empty reachable heap returns an entry
whose key is at most the key of every stored entry. -/
theorem heap_order_and_min (c : Nat) (ops : List HeapOp) :
    heapOrdered (runOps (Heap.init c) ops).arr ∧
    ((runOps (Heap.init c) ops).arr ≠ [] →
      ∀ x ∈ (runOps (Heap.init c) ops).arr,
        ((runOps (Heap.init c) ops).ExtractMin).1.key ≤ x.key) := by
  have hord := runOps_ordered (Heap.init c) ops
    (by intro j hj hj2; simp [Heap.init] at hj; omega)
  refine ⟨hord, ?_⟩
  intro hne x hx
  obtain ⟨i, h1, hlen, he⟩ := mem_hget _ x hx
  have hroot := heapOrdered_root_min _ hord i h1 hlen
  rw [he] at hroot
  rw [ExtractMin_fst _ hne]
  exact hroot

theorem heap_order_and_min_witness :
    heapOrdered (runOps (Heap.init 4) [HeapOp.insert 0 5, HeapOp.insert 1 3]).arr ∧
    (runOps (Heap.init 4) [HeapOp.insert 0 5, HeapOp.insert 1 3]).arr ≠ [] ∧
    ∀ x ∈ (runOps (Heap.init 4) [HeapOp.insert 0 5, HeapOp.insert 1 3]).arr,
      ((runOps (Heap.init 4) [HeapOp.insert 0 5, HeapOp.insert 1 3]).ExtractMin).1.key ≤ x.key :=
  ⟨(heap_order_and_min 4 _).1, by decide,
   (heap_order_and_min 4 [HeapOp.insert 0 5, HeapOp.insert 1 3]).2 (by decide)⟩

theorem dijkstraLoop_empty (g : Graph) (f : Nat) (cap : Nat) (dist : List Int) :
    dijkstraLoop g (f + 1) ⟨[], cap⟩ dist = dist := by
  rw [dijkstraLoop]
  rw [if_pos (show (⟨[], cap⟩ : Heap).isEmpty = true from rfl)]

theorem dijkstraLoop_cons (g : Graph) (f : Nat) (x : HNode) (t : List HNode)
    (cap : Nat) (dist : List Int) :
    dijkstraLoop g (f + 1) ⟨x :: t, cap⟩ dist =
      if (Heap.ExtractMin ⟨x :: t, cap⟩).1.key >
          dist.getD (Heap.ExtractMin ⟨x :: t, cap⟩).1.vertex 0 then
        dijkstraLoop g f (Heap.ExtractMin ⟨x :: t, cap⟩).2 dist
      else
        dijkstraLoop g f
          (dijkstraScan (g.array (Heap.ExtractMin ⟨x :: t, cap⟩).1.vertex)
            (Heap.ExtractMin ⟨x :: t, cap⟩).1.vertex
            (Heap.ExtractMin ⟨x :: t, cap⟩).2 dist).1
          (dijkstraScan (g.array (Heap.ExtractMin ⟨x :: t, cap⟩).1.vertex)
            (Heap.ExtractMin ⟨x :: t, cap⟩).1.vertex
            (Heap.ExtractMin ⟨x :: t, cap⟩).2 dist).2 := by
  rw [dijkstraLoop]
  rw [if_neg (show ¬(⟨x :: t, cap⟩ : Heap).isEmpty = true by simp [Heap.isEmpty])]

/-- C3: on a fresh graph with at least 3 vertices, after
`addEdge(0,1,4), addEdge(0,2,1), addEdge(2,1,1)`, `DijkstraAlgorithm(0)`
leaves `distBuffer[1]` equal to `2` (the relaxed path `0 -> 2 -> 1`), not
`4`. -/
theorem dijkstra_test_dist (n : Nat) (hn : 3 ≤ n) :
    ((dijGraph n).DijkstraAlgorithm 0).getD 1 0 = 2 := by
  obtain ⟨m, rfl⟩ : ∃ m, n = m + 3 := ⟨n - 3, by omega⟩
  have h0 : 0 < m + 3 := by omega
  have h1 : 1 < m + 3 := by omega
  have h2 : 2 < m + 3 := by omega
  have c0 : (0 : Int) < (m : Int) + 3 := by omega
  have c1 : (1 : Int) < (m : Int) + 3 := by omega
  have c2 : (2 : Int) < (m : Int) + 3 := by omega
  have hfacts : (dijGraph (m+3)).array 0 = [(2, 1), (1, 4)] ∧
      (dijGraph (m+3)).array 1 = [(2, 1), (0, 4)] ∧
      (dijGraph (m+3)).array 2 = [(1, 1), (0, 1)] ∧
      (dijGraph (m+3)).vertices = m + 3 := by
    simp [dijGraph, Graph.addEdge, Graph.init, AdjList.AddEdge, Function.update,
      h0, h1, h2, c0, c1, c2]
  obtain ⟨ha0, ha1, ha2, hv⟩ := hfacts
  have h9 : 9 ≤ (m+3) * (m+3) := by
    have := Nat.mul_le_mul (show 3 ≤ m + 3 by omega) (show 3 ≤ m + 3 by omega)
    omega
  have hI0 : (Heap.init ((m+3)*(m+3))).InsertKey 0 0 = ⟨[⟨0,0⟩], (m+3)*(m+3)⟩ := by
    unfold Heap.InsertKey
    rw [if_neg (by simp only [Heap.init, List.length_nil]; omega)]
    simp only [Heap.init, List.length_nil]
    rfl
  have hIa : (⟨[], (m+3)*(m+3)⟩ : Heap).InsertKey 2 1 = ⟨[⟨2,1⟩], (m+3)*(m+3)⟩ := by
    unfold Heap.InsertKey
    rw [if_neg (by simp only [List.length_nil]; omega)]
    simp only [List.length_nil]
    rfl
  have hIb : (⟨[⟨2,1⟩], (m+3)*(m+3)⟩ : Heap).InsertKey 1 4 =
      ⟨[⟨2,1⟩,⟨1,4⟩], (m+3)*(m+3)⟩ := by
    unfold Heap.InsertKey
    rw [if_neg (by simp only [List.length_cons, List.length_nil]; omega)]
    simp only [List.length_cons, List.length_nil]
    rfl
  have hIc : (⟨[⟨1,4⟩], (m+3)*(m+3)⟩ : Heap).InsertKey 1 2 =
      ⟨[⟨1,2⟩,⟨1,4⟩], (m+3)*(m+3)⟩ := by
    unfold Heap.InsertKey
    rw [if_neg (by simp only [List.length_cons, List.length_nil]; omega)]
    simp only [List.length_cons, List.length_nil]
    rfl
  have hE1 : (⟨[⟨0,0⟩], (m+3)*(m+3)⟩ : Heap).ExtractMin =
      (⟨0,0⟩, ⟨[], (m+3)*(m+3)⟩) := rfl
  have hE2 : (⟨[⟨2,1⟩,⟨1,4⟩], (m+3)*(m+3)⟩ : Heap).ExtractMin =
      (⟨2,1⟩, ⟨[⟨1,4⟩], (m+3)*(m+3)⟩) := rfl
  have hE3 : (⟨[⟨1,2⟩,⟨1,4⟩], (m+3)*(m+3)⟩ : Heap).ExtractMin =
      (⟨1,2⟩, ⟨[⟨1,4⟩], (m+3)*(m+3)⟩) := rfl
  have hE4 : (⟨[⟨1,4⟩], (m+3)*(m+3)⟩ : Heap).ExtractMin =
      (⟨1,4⟩, ⟨[], (m+3)*(m+3)⟩) := rfl
  have hS1 : dijkstraScan ((dijGraph (m+3)).array 0) 0 (⟨[], (m+3)*(m+3)⟩ : Heap)
      (0 :: INT_MAX :: INT_MAX :: List.replicate m INT_MAX) =
      (⟨[⟨2,1⟩,⟨1,4⟩], (m+3)*(m+3)⟩, 0 :: 4 :: 1 :: List.replicate m INT_MAX) := by
    rw [ha0, dijkstraScan]
    rw [if_pos (by norm_num [INT_MAX])]
    simp only [List.getD_cons_zero, List.getD_cons_succ, List.set_cons_zero,
      List.set_cons_succ]
    norm_num
    rw [hIa, dijkstraScan]
    rw [if_pos (by norm_num [INT_MAX])]
    simp only [List.getD_cons_zero, List.getD_cons_succ, List.set_cons_zero,
      List.set_cons_succ]
    norm_num
    rw [hIb, dijkstraScan]
  have hS2 : dijkstraScan ((dijGraph (m+3)).array 2) 2
      (⟨[⟨1,4⟩], (m+3)*(m+3)⟩ : Heap)
      (0 :: 4 :: 1 :: List.replicate m INT_MAX) =
      (⟨[⟨1,2⟩,⟨1,4⟩], (m+3)*(m+3)⟩, 0 :: 2 :: 1 :: List.replicate m INT_MAX) := by
    rw [ha2, dijkstraScan]
    rw [if_pos (by norm_num [INT_MAX])]
    simp only [List.getD_cons_zero, List.getD_cons_succ, List.set_cons_zero,
      List.set_cons_succ]
    norm_num
    rw [hIc, dijkstraScan]
    rw [if_neg (by norm_num [INT_MAX])]
    rw [dijkstraScan]
  have hS3 : dijkstraScan ((dijGraph (m+3)).array 1) 1
      (⟨[⟨1,4⟩], (m+3)*(m+3)⟩ : Heap)
      (0 :: 2 :: 1 :: List.replicate m INT_MAX) =
      (⟨[⟨1,4⟩], (m+3)*(m+3)⟩, 0 :: 2 :: 1 :: List.replicate m INT_MAX) := by
    rw [ha1, dijkstraScan]
    rw [if_neg (by norm_num [INT_MAX])]
    rw [dijkstraScan]
    rw [if_neg (by norm_num [INT_MAX])]
    rw [dijkstraScan]
  have hd0 : (List.replicate (m+3) INT_MAX).set 0 0 =
      0 :: INT_MAX :: INT_MAX :: List.replicate m INT_MAX := by
    simp [List.replicate_succ]
  rw [Graph.DijkstraAlgorithm, hv, hI0, hd0]
  obtain ⟨F, hF⟩ : ∃ F, 2 + (m + 3) + totalAdj (dijGraph (m+3)) = F + 5 :=
    ⟨m + totalAdj (dijGraph (m+3)), by omega⟩
  rw [hF]
  rw [show F + 5 = (F + 4) + 1 by omega]
  rw [dijkstraLoop_cons, hE1]
  norm_num
  rw [hS1]
  norm_num
  rw [show F + 4 = (F + 3) + 1 by omega]
  rw [dijkstraLoop_cons, hE2]
  norm_num
  rw [hS2]
  norm_num
  rw [show F + 3 = (F + 2) + 1 by omega]
  rw [dijkstraLoop_cons, hE3]
  norm_num
  rw [hS3]
  norm_num
  rw [show F + 2 = (F + 1) + 1 by omega]
  rw [dijkstraLoop_cons, hE4]
  norm_num
  rw [dijkstraLoop_empty]
  norm_num

theorem dijkstra_test_dist_witness :
    3 ≤ 3 ∧ ((dijGraph 3).DijkstraAlgorithm 0).getD 1 0 = 2 :=
  ⟨by decide, dijkstra_test_dist 3 (by decide)⟩
